import Mathlib

/-!
Verification of core algorithms of the `infinitree` embedded encrypted
tree database, against a shallow embedding of its Rust sources.

Conventions used throughout this development:
* machine bytes are `Nat` values below 256, byte buffers are `List Nat`;
* `u32`/`usize` arithmetic is `Nat` with explicit `% 2^w` where the Rust
  code can wrap;
* platform byte order is an explicit `le : Bool` parameter wherever the
  source calls `to_ne_bytes`/`from_ne_bytes` (native byte order);
* fallible operations return `Option`/`Except`.
-/

namespace Infinitree

/-! ## Byte-order helpers (Rust `u32::to_ne_bytes` / `from_ne_bytes`) -/

/-- Little-endian byte encoding of a `u32` value. -/
def u32LeBytes (n : Nat) : List Nat :=
  [n % 256, n / 256 % 256, n / 65536 % 256, n / 16777216 % 256]

/-- Big-endian byte encoding of a `u32` value. -/
def u32BeBytes (n : Nat) : List Nat :=
  [n / 16777216 % 256, n / 65536 % 256, n / 256 % 256, n % 256]

/-- Rust `u32::to_ne_bytes`: native byte order. The parameter `le` records
whether the platform is little-endian. -/
def u32NeBytes (le : Bool) (n : Nat) : List Nat :=
  if le then u32LeBytes n else u32BeBytes n

/-- Rust `u32::from_ne_bytes` applied to a 4-byte buffer. -/
def u32FromNeBytes (le : Bool) (b : List Nat) : Nat :=
  match b with
  | [b0, b1, b2, b3] =>
    if le then b0 + 256 * b1 + 65536 * b2 + 16777216 * b3
    else b3 + 256 * b2 + 65536 * b1 + 16777216 * b0
  | _ => 0

theorem u32NeBytes_length (le : Bool) (n : Nat) : (u32NeBytes le n).length = 4 := by
  cases le <;> rfl

theorem u32FromNeBytes_u32NeBytes (le : Bool) (n : Nat) (h : n < 4294967296) :
    u32FromNeBytes le (u32NeBytes le n) = n := by
  cases le <;> simp [u32NeBytes, u32LeBytes, u32BeBytes, u32FromNeBytes] <;> omega

/-! ## `RawChunkPointer` and its hand-rolled codec (src/infinitree/src/chunks.rs) -/

/-- The raw pointer structure of `chunks.rs`: `offs: u32`, `size: u32`,
`object: ObjectId` (32 bytes), `key: Digest` (32 bytes), `tag: Tag`
(16 bytes). Byte arrays are byte lists here. -/
structure RawChunkPointer where
  offs : Nat
  size : Nat
  object : List Nat
  key : List Nat
  tag : List Nat
deriving Repr, DecidableEq

/-- Fields are within their type bounds: the integers fit in `u32` and the
byte arrays have the fixed lengths of `ObjectId`, `Digest` and `Tag`, with
each entry an actual byte. -/
def RawChunkPointer.WF (p : RawChunkPointer) : Prop :=
  p.offs < 4294967296 ∧ p.size < 4294967296 ∧
  p.object.length = 32 ∧ p.key.length = 32 ∧ p.tag.length = 16 ∧
  (∀ b ∈ p.object, b < 256) ∧ (∀ b ∈ p.key, b < 256) ∧ (∀ b ∈ p.tag, b < 256)

instance (p : RawChunkPointer) : Decidable p.WF := by
  unfold RawChunkPointer.WF; infer_instance

/-- `RawChunkPointer::write_to`: sequentially writes `offs.to_ne_bytes()`,
`size.to_ne_bytes()`, then the `object`, `key` and `tag` byte arrays.
The embedding returns the 88 bytes written (the Rust code writes them into
the prefix of a caller-supplied buffer and returns the count). -/
def RawChunkPointer.writeTo (le : Bool) (p : RawChunkPointer) : List Nat :=
  u32NeBytes le p.offs ++ u32NeBytes le p.size ++ p.object ++ p.key ++ p.tag

/-- `RawChunkPointer::parse`: reads `offs` and `size` with
`u32::from_ne_bytes`, then copies 32 + 32 + 16 bytes into `object`, `key`
and `tag`, returning the number of bytes consumed (88) and the pointer. -/
def RawChunkPointer.parse (le : Bool) (buffer : List Nat) : Nat × RawChunkPointer :=
  (88,
   { offs := u32FromNeBytes le (buffer.take 4)
     size := u32FromNeBytes le ((buffer.drop 4).take 4)
     object := (buffer.drop 8).take 32
     key := (buffer.drop 40).take 32
     tag := (buffer.drop 72).take 16 })

theorem writeTo_length (le : Bool) (p : RawChunkPointer) (h : p.WF) :
    (p.writeTo le).length = 88 := by
  obtain ⟨-, -, h3, h4, h5, -, -, -⟩ := h
  simp [RawChunkPointer.writeTo, u32NeBytes_length, h3, h4, h5]

/-- Parsing recovers the pointer from its encoding followed by any suffix
(the Rust parser only reads the first 88 bytes of the buffer). -/
theorem parse_writeTo_append (le : Bool) (p : RawChunkPointer) (rest : List Nat)
    (h : p.WF) : RawChunkPointer.parse le (p.writeTo le ++ rest) = (88, p) := by
  obtain ⟨h1, h2, h3, h4, h5, -, -, -⟩ := h
  have hA : (u32NeBytes le p.offs).length = 4 := u32NeBytes_length ..
  have hB : (u32NeBytes le p.size).length = 4 := u32NeBytes_length ..
  obtain ⟨offs, size, object, key, tag⟩ := p
  simp only [RawChunkPointer.writeTo, RawChunkPointer.parse, List.append_assoc]
  have d4 : (u32NeBytes le offs ++
      (u32NeBytes le size ++ (object ++ (key ++ (tag ++ rest))))).drop 4 =
      u32NeBytes le size ++ (object ++ (key ++ (tag ++ rest))) :=
    List.drop_left' hA
  have d8 : ∀ l : List Nat, l.drop 8 = (l.drop 4).drop 4 := by
    intro l; rw [List.drop_drop]
  have d40 : ∀ l : List Nat, l.drop 40 = (l.drop 8).drop 32 := by
    intro l; rw [List.drop_drop]
  have d72 : ∀ l : List Nat, l.drop 72 = (l.drop 40).drop 32 := by
    intro l; rw [List.drop_drop]
  refine Prod.ext rfl ?_
  simp only [d8, d40, d72, d4]
  simp only [List.take_left' hA, List.drop_left' hB, List.take_left' hB,
    List.drop_left' h3, List.take_left' h3, List.drop_left' h4,
    List.take_left' h4, List.take_left' h5]
  simp [u32FromNeBytes_u32NeBytes le _ h1, u32FromNeBytes_u32NeBytes le _ h2]

/-- C1: for every `RawChunkPointer` whose fields are within their type
bounds, on either platform byte order, `write_to` produces an 88-byte
buffer and `parse` applied to it returns the original pointer with all
five fields equal. -/
theorem C1_raw_chunk_pointer_roundtrip (le : Bool) (p : RawChunkPointer)
    (h : p.WF) :
    (p.writeTo le).length = 88 ∧
    RawChunkPointer.parse le (p.writeTo le) = (88, p) := by
  refine ⟨writeTo_length le p h, ?_⟩
  have := parse_writeTo_append le p [] h
  simpa using this

/-- A concrete well-formed pointer used by witnesses and counterexamples. -/
def ptrExample : RawChunkPointer :=
  { offs := 1234
    size := 1337
    object := List.replicate 32 0
    key := [0, 1, 2, 3, 4, 5, 6, 7, 8, 9, 10, 11, 12, 13, 14, 15, 255, 16,
            32, 48, 64, 80, 96, 112, 128, 144, 160, 176, 192, 208, 224, 240]
    tag := [0, 17, 34, 51, 68, 85, 102, 119, 136, 153, 170, 187, 204, 221,
            238, 255] }

theorem C1_raw_chunk_pointer_roundtrip_witness :
    ptrExample.WF ∧
    ((ptrExample.writeTo true).length = 88 ∧
      RawChunkPointer.parse true (ptrExample.writeTo true) = (88, ptrExample)) :=
  ⟨by decide, C1_raw_chunk_pointer_roundtrip true ptrExample (by decide)⟩

/-! ## C8: the fixed layout of the 88-byte encoding -/

/-- Modelled from the spec's words for the refinement comparison: the
claimed platform-independent layout — offset as a little-endian `u32` at
bytes 0..4, size as a little-endian `u32` at bytes 4..8, then `object`,
`key` and `tag`. -/
def specLeLayout (p : RawChunkPointer) : List Nat :=
  u32LeBytes p.offs ++ u32LeBytes p.size ++ p.object ++ p.key ++ p.tag

/-- A pointer whose `offs` makes byte order observable. -/
def ptrEndian : RawChunkPointer :=
  { offs := 1, size := 0, object := List.replicate 32 0,
    key := List.replicate 32 0, tag := List.replicate 16 0 }

/-- C8 counterexample: on a big-endian platform the encoding does not
follow the claimed little-endian layout — `write_to` uses `to_ne_bytes`
(native byte order), so the layout is not platform-independent. -/
theorem C8_layout_counterexample :
    ptrEndian.WF ∧ ptrEndian.writeTo false ≠ specLeLayout ptrEndian := by
  constructor
  · decide
  · decide

/-- C8 (amended): the integer fields are encoded in native byte order; on
a little-endian platform the 88-byte encoding has exactly the stated
layout — offset little-endian at 0..4, size little-endian at 4..8, then
object (32 bytes), key (32 bytes) and tag (16 bytes). -/
theorem C8_layout_little_endian (p : RawChunkPointer) (h : p.WF) :
    p.writeTo true = specLeLayout p ∧ (p.writeTo true).length = 88 := by
  refine ⟨?_, writeTo_length true p h⟩
  simp [RawChunkPointer.writeTo, specLeLayout, u32NeBytes]

theorem C8_layout_little_endian_witness :
    ptrExample.WF ∧
    (ptrExample.writeTo true = specLeLayout ptrExample ∧
      (ptrExample.writeTo true).length = 88) :=
  ⟨by decide, C8_layout_little_endian ptrExample (by decide)⟩

/-! ## VersionedMap (src/infinitree/src/fields/versioned/map.rs)

The two `scc::HashMap<K, Action<V>>` maps are embedded as association
lists with unique keys; `Action<V> = Option<Arc<V>>` becomes `Option V`. -/

section VersionedMap

variable {K V : Type} [DecidableEq K]

/-- Association-list lookup modelling `HashMap::read`: an entry stores an
`Action<V>`, so a lookup yields `Option (Option V)`. -/
def lookupA : List (K × Option V) → K → Option (Option V)
  | [], _ => none
  | e :: rest, k => if e.1 = k then some e.2 else lookupA rest k

/-- Removal of a key, modelling `HashMap::remove`/`remove_if`. -/
def eraseA : List (K × Option V) → K → List (K × Option V)
  | [], _ => []
  | e :: rest, k => if e.1 = k then eraseA rest k else e :: eraseA rest k

/-- Write-through of an entry, modelling `HashMap::entry(k)` followed by
storing a value in it. -/
def setA (m : List (K × Option V)) (k : K) (v : Option V) : List (K × Option V) :=
  (k, v) :: eraseA m k

/-- A `VersionedMap`: `base` holds committed history, `current` the
uncommitted changeset. -/
structure VMap (K V : Type) where
  base : List (K × Option V)
  current : List (K × Option V)
deriving Repr, DecidableEq

def VMap.empty : VMap K V := ⟨[], []⟩

/-- `VersionedMap::get`: read `current` first, fall back to `base`, then
flatten the nested option. -/
def VMap.get (m : VMap K V) (k : K) : Option V :=
  (match lookupA m.current k with
   | some a => some a
   | none => lookupA m.base k).join

/-- `VersionedMap::contains`: `is_some` of the first entry found, reading
`current` before `base`, defaulting to `false`. -/
def VMap.contains (m : VMap K V) (k : K) : Bool :=
  (match lookupA m.current k with
   | some a => some a.isSome
   | none => (lookupA m.base k).map Option.isSome).getD false

/-- `VersionedMap::insert` (via `insert_with`): when `get` finds a value
the map is unchanged and that value is returned; otherwise the new value
is stored in `current` (`get_or_insert_with` overwrites a tombstone). -/
def VMap.insertOp (m : VMap K V) (k : K) (v : V) : V × VMap K V :=
  match m.get k with
  | some w => (w, m)
  | none => (v, { m with current := setA m.current k (some v) })

/-- `VersionedMap::remove`: records a tombstone in `current` only when
`contains` holds. -/
def VMap.removeOp (m : VMap K V) (k : K) : VMap K V :=
  if m.contains k then { m with current := setA m.current k none } else m

/-- One step of the `retain` loop inside `VersionedMap::commit`:
`base.remove_if(k, |_| v.is_none())` removes the base entry when the key
is present there and the new value is a tombstone; in every other case the
entry of `base` is overwritten with the new value — note that a tombstone
whose key is absent from `base` is inserted into `base` as a `none`
entry. -/
def commitEntry (base : List (K × Option V)) (e : K × Option V) :
    List (K × Option V) :=
  if e.2.isNone ∧ (lookupA base e.1).isSome then eraseA base e.1
  else setA base e.1 e.2

/-- `VersionedMap::commit`: fold every entry of `current` into `base` and
clear `current`. -/
def VMap.commitOp (m : VMap K V) : VMap K V :=
  { base := m.current.foldl commitEntry m.base, current := [] }

/-- `VersionedMap::rollback`: clear `current`. -/
def VMap.rollbackOp (m : VMap K V) : VMap K V :=
  { m with current := [] }

/-- `VersionedMap::len`: starts from `base.len()` and walks `current`,
adding one for every addition and subtracting one for every tombstone.
The counter is a `usize`; we model the release-build wrapping semantics
with arithmetic modulo `2^64` (a debug build panics when the subtraction
underflows). -/
def VMap.len (m : VMap K V) : Nat :=
  m.current.foldl
    (fun stored e =>
      match e.2 with
      | some _ => (stored + 1) % 18446744073709551616
      | none => (stored + 18446744073709551615) % 18446744073709551616)
    (m.base.length % 18446744073709551616)

/-- The four operations of the claim. -/
inductive MapOp (K V : Type) where
  | insert (k : K) (v : V)
  | remove (k : K)
  | commit
  | rollback

def VMap.applyOp (m : VMap K V) : MapOp K V → VMap K V
  | .insert k v => (m.insertOp k v).2
  | .remove k => m.removeOp k
  | .commit => m.commitOp
  | .rollback => m.rollbackOp

def runOps (ops : List (MapOp K V)) : VMap K V :=
  ops.foldl VMap.applyOp VMap.empty

/-! ### Reference semantics, per key, built from the spec's words -/

/-- Reference per-key state: the committed value and the pending
uncommitted change (`some none` is a pending removal, `none` means no
pending change). -/
structure RefKey (V : Type) where
  committed : Option V
  pending : Option (Option V)

/-- The visible value of a key: the uncommitted delta takes precedence
over the committed base. -/
def RefKey.effective (s : RefKey V) : Option V :=
  match s.pending with
  | some p => p
  | none => s.committed

/-- Reference step, following the spec: insert writes only when the key
has no visible value; remove records a pending removal only when it has
one; commit makes the effective value the committed one; rollback discards
the pending change. -/
def refStep (k : K) (s : RefKey V) : MapOp K V → RefKey V
  | .insert q v =>
    if q = k then
      match s.effective with
      | none => { s with pending := some (some v) }
      | some _ => s
    else s
  | .remove q =>
    if q = k then
      match s.effective with
      | some _ => { s with pending := some none }
      | none => s
    else s
  | .commit => { committed := s.effective, pending := none }
  | .rollback => { s with pending := none }

def refRun (ops : List (MapOp K V)) (k : K) : RefKey V :=
  ops.foldl (refStep k) ⟨none, none⟩

/-! ### Lookup lemmas -/

theorem lookupA_eraseA (m : List (K × Option V)) (k q : K) :
    lookupA (eraseA m k) q = if k = q then none else lookupA m q := by
  induction m with
  | nil => simp [eraseA, lookupA]
  | cons e rest ih =>
    by_cases h1 : e.1 = k
    · subst h1
      by_cases h2 : e.1 = q
      · subst h2; simp [eraseA, ih]
      · simp [eraseA, lookupA, ih, h2]
    · by_cases h2 : e.1 = q
      · subst h2
        have h3 : ¬ k = e.1 := fun hh => h1 hh.symm
        simp [eraseA, lookupA, h1, h3]
      · simp [eraseA, lookupA, h1, h2, ih]

theorem lookupA_setA (m : List (K × Option V)) (k q : K) (v : Option V) :
    lookupA (setA m k v) q = if k = q then some v else lookupA m q := by
  by_cases h : k = q <;> simp [setA, lookupA, lookupA_eraseA, h]

theorem lookupA_eq_none_of_not_mem (m : List (K × Option V)) (k : K)
    (h : k ∉ m.map Prod.fst) : lookupA m k = none := by
  induction m with
  | nil => rfl
  | cons e rest ih =>
    simp only [List.map_cons, List.mem_cons, not_or] at h
    have h1 : ¬ e.1 = k := fun he => h.1 he.symm
    simp [lookupA, h1, ih h.2]

theorem eraseA_sublist (m : List (K × Option V)) (k : K) :
    (eraseA m k).Sublist m := by
  induction m with
  | nil => simp [eraseA]
  | cons e rest ih =>
    by_cases h : e.1 = k
    · simp only [eraseA, if_pos h]
      exact ih.trans (List.sublist_cons_self e rest)
    · simp only [eraseA, if_neg h]
      exact ih.cons₂ e

/-- Keys are unique, as they are in the underlying hash maps. -/
def nodupKeys (l : List (K × Option V)) : Prop := (l.map Prod.fst).Nodup

theorem nodupKeys_eraseA (l : List (K × Option V)) (k : K)
    (h : nodupKeys l) : nodupKeys (eraseA l k) :=
  ((eraseA_sublist l k).map Prod.fst).nodup h

theorem not_mem_map_fst_eraseA (l : List (K × Option V)) (k : K) :
    k ∉ (eraseA l k).map Prod.fst := by
  induction l with
  | nil => simp [eraseA]
  | cons e rest ih =>
    by_cases h : e.1 = k
    · simpa [eraseA, h] using ih
    · simp only [eraseA, if_neg h, List.map_cons, List.mem_cons, not_or]
      exact ⟨fun hh => h hh.symm, ih⟩

theorem nodupKeys_setA (l : List (K × Option V)) (k : K) (v : Option V)
    (h : nodupKeys l) : nodupKeys (setA l k v) := by
  unfold nodupKeys setA
  simp only [List.map_cons, List.nodup_cons]
  exact ⟨not_mem_map_fst_eraseA l k, nodupKeys_eraseA l k h⟩

theorem lookupA_commitEntry_ne (base : List (K × Option V)) (e : K × Option V)
    (k : K) (h : e.1 ≠ k) : lookupA (commitEntry base e) k = lookupA base k := by
  unfold commitEntry
  split
  · rw [lookupA_eraseA, if_neg h]
  · rw [lookupA_setA, if_neg h]

/-- Effect of the `commit` fold on a single key, assuming `current` has
unique keys. -/
theorem lookupA_commitFold (cur : List (K × Option V))
    (base : List (K × Option V)) (k : K) (h : nodupKeys cur) :
    lookupA (cur.foldl commitEntry base) k =
      match lookupA cur k with
      | none => lookupA base k
      | some (some v) => some (some v)
      | some none => if (lookupA base k).isSome then none else some none := by
  induction cur generalizing base with
  | nil => simp [lookupA]
  | cons e rest ih =>
    have hmap : (List.map Prod.fst (e :: rest)).Nodup := h
    rw [List.map_cons] at hmap
    have hnd : nodupKeys rest := hmap.of_cons
    by_cases he : e.1 = k
    · subst he
      have hrest : lookupA rest e.1 = none :=
        lookupA_eq_none_of_not_mem rest e.1 (List.nodup_cons.mp hmap).1
      rw [List.foldl_cons, ih _ hnd, hrest]
      simp only [lookupA, if_pos rfl]
      rcases hv : e.2 with - | v
      · unfold commitEntry
        rcases hb : lookupA base e.1 with - | b
        · simp [hv, hb, lookupA_setA]
        · simp [hv, hb, lookupA_eraseA]
      · unfold commitEntry
        simp [hv, lookupA_setA]
    · rw [List.foldl_cons, ih _ hnd, lookupA_commitEntry_ne base e k he]
      simp [lookupA, he]

theorem nodupKeys_commitEntry (base : List (K × Option V)) (e : K × Option V)
    (h : nodupKeys base) : nodupKeys (commitEntry base e) := by
  unfold commitEntry
  split
  · exact nodupKeys_eraseA base e.1 h
  · exact nodupKeys_setA base e.1 e.2 h

theorem nodupKeys_commitFold (cur base : List (K × Option V))
    (h : nodupKeys base) : nodupKeys (cur.foldl commitEntry base) := by
  induction cur generalizing base with
  | nil => exact h
  | cons e rest ih => exact ih _ (nodupKeys_commitEntry base e h)

/-- Well-formedness of a `VMap`: both hash maps have unique keys. -/
def VMap.WFm (m : VMap K V) : Prop :=
  nodupKeys m.base ∧ nodupKeys m.current

omit [DecidableEq K] in
theorem WFm_empty : (VMap.empty : VMap K V).WFm :=
  ⟨List.nodup_nil, List.nodup_nil⟩

theorem WFm_applyOp (m : VMap K V) (op : MapOp K V) (h : m.WFm) :
    (m.applyOp op).WFm := by
  obtain ⟨hb, hc⟩ := h
  cases op with
  | insert k v =>
    simp only [VMap.applyOp, VMap.insertOp]
    rcases m.get k with - | w
    · exact ⟨hb, nodupKeys_setA _ k _ hc⟩
    · exact ⟨hb, hc⟩
  | remove k =>
    simp only [VMap.applyOp, VMap.removeOp]
    split
    · exact ⟨hb, nodupKeys_setA _ k _ hc⟩
    · exact ⟨hb, hc⟩
  | commit => exact ⟨nodupKeys_commitFold _ _ hb, List.nodup_nil⟩
  | rollback => exact ⟨hb, List.nodup_nil⟩

theorem WFm_runOps (ops : List (MapOp K V)) : (runOps ops).WFm := by
  suffices h : ∀ m : VMap K V, m.WFm → (ops.foldl VMap.applyOp m).WFm from
    h VMap.empty WFm_empty
  induction ops with
  | nil => exact fun m hm => hm
  | cons op rest ih => exact fun m hm => ih _ (WFm_applyOp m op hm)

/-! ### Refinement of the per-key reference semantics -/

/-- The concrete map agrees with the per-key reference state at key `k`. -/
def keyInv (m : VMap K V) (k : K) (s : RefKey V) : Prop :=
  s.committed = (lookupA m.base k).join ∧ s.pending = lookupA m.current k

theorem get_eq_effective (m : VMap K V) (k : K) (s : RefKey V)
    (h : keyInv m k s) : m.get k = s.effective := by
  obtain ⟨h1, h2⟩ := h
  unfold VMap.get RefKey.effective
  rw [← h2, h1]
  rcases s.pending with - | p <;> simp

theorem contains_eq_isSome_get (m : VMap K V) (k : K) :
    m.contains k = (m.get k).isSome := by
  unfold VMap.contains VMap.get
  rcases lookupA m.current k with - | a
  · rcases lookupA m.base k with - | b <;> simp
  · simp

theorem keyInv_applyOp (m : VMap K V) (k : K) (s : RefKey V) (op : MapOp K V)
    (hm : m.WFm) (h : keyInv m k s) :
    keyInv (m.applyOp op) k (refStep k s op) := by
  obtain ⟨h1, h2⟩ := h
  cases op with
  | insert q v =>
    simp only [VMap.applyOp, VMap.insertOp, refStep]
    by_cases hqk : q = k
    · subst hqk
      rw [if_pos rfl, ← get_eq_effective m q s ⟨h1, h2⟩]
      rcases hg : m.get q with - | w <;> simp only [hg]
      · exact ⟨h1, by simp [lookupA_setA]⟩
      · exact ⟨h1, h2⟩
    · rw [if_neg hqk]
      rcases hg : m.get q with - | w <;> simp only [hg]
      · exact ⟨h1, by rw [h2, lookupA_setA, if_neg hqk]⟩
      · exact ⟨h1, h2⟩
  | remove q =>
    simp only [VMap.applyOp, VMap.removeOp, refStep]
    by_cases hqk : q = k
    · subst hqk
      rw [if_pos rfl, contains_eq_isSome_get, ← get_eq_effective m q s ⟨h1, h2⟩]
      rcases hg : m.get q with - | w <;>
        simp only [hg, Option.isSome_none, Option.isSome_some]
      · simp only [Bool.false_eq_true, if_false]
        exact ⟨h1, h2⟩
      · simp only [if_true]
        exact ⟨h1, by simp [lookupA_setA]⟩
    · rw [if_neg hqk]
      split
      · exact ⟨h1, by rw [h2, lookupA_setA, if_neg hqk]⟩
      · exact ⟨h1, h2⟩
  | commit =>
    simp only [VMap.applyOp, VMap.commitOp, refStep]
    constructor
    · show RefKey.effective s = _
      rw [lookupA_commitFold m.current m.base k hm.2, ← h2]
      unfold RefKey.effective
      rcases s.pending with - | p
      · simpa using h1
      · rcases p with - | v
        · rcases hb : lookupA m.base k with - | b <;> simp [hb]
        · simp
    · simp [lookupA]
  | rollback =>
    exact ⟨h1, by simp [VMap.applyOp, VMap.rollbackOp, refStep, lookupA]⟩

theorem keyInv_runOps (ops : List (MapOp K V)) (k : K) :
    keyInv (runOps ops) k (refRun ops k) := by
  suffices h : ∀ (m : VMap K V) (s : RefKey V), m.WFm → keyInv m k s →
      keyInv (ops.foldl VMap.applyOp m) k (ops.foldl (refStep k) s) from
    h VMap.empty ⟨none, none⟩ WFm_empty ⟨rfl, rfl⟩
  induction ops with
  | nil => exact fun m s _ hs => hs
  | cons op rest ih =>
    exact fun m s hm hs =>
      ih _ _ (WFm_applyOp m op hm) (keyInv_applyOp m k s op hm hs)

theorem get_commitOp (m : VMap K V) (k : K) (hm : m.WFm) :
    m.commitOp.get k = m.get k := by
  unfold VMap.get VMap.commitOp
  simp only [lookupA]
  rw [lookupA_commitFold m.current m.base k hm.2]
  rcases lookupA m.current k with - | a
  · rfl
  · rcases a with - | v
    · rcases hb : lookupA m.base k with - | b <;> simp [hb]
    · simp

/-- C2: for any sequence of insert/remove/commit/rollback operations from
the empty map, `get k` equals the visible value of the per-key reference
semantics (most recent non-removed, non-rolled-back write, with the
uncommitted delta taking precedence over the committed base); moreover
insert on a visible key returns the existing value and leaves the map
unchanged, remove is a no-op when the key is not visible, commit folds the
delta into the base preserving `get` and leaves an empty delta, and
rollback clears the delta. -/
theorem C2_versioned_map_semantics (ops : List (MapOp K V)) (k : K) :
    (runOps ops).get k = (refRun ops k).effective ∧
    (∀ v w, (runOps ops).get k = some w →
      (runOps ops).insertOp k v = (w, runOps ops)) ∧
    ((runOps ops).contains k = false → (runOps ops).removeOp k = runOps ops) ∧
    ((runOps ops).commitOp.get k = (runOps ops).get k ∧
      (runOps ops).commitOp.current = []) ∧
    (runOps ops).rollbackOp.current = [] := by
  refine ⟨get_eq_effective _ k _ (keyInv_runOps ops k), ?_, ?_, ?_, rfl⟩
  · intro v w hw
    simp [VMap.insertOp, hw]
  · intro hc
    simp [VMap.removeOp, hc]
  · exact ⟨get_commitOp _ k (WFm_runOps ops), rfl⟩

theorem C2_versioned_map_semantics_witness :
    (runOps [MapOp.insert 1 2] : VMap Nat Nat).get 1 = some 2 ∧
    (runOps [MapOp.insert 1 2] : VMap Nat Nat).insertOp 1 5 =
      (2, runOps [MapOp.insert 1 2]) ∧
    (runOps [MapOp.insert 1 2] : VMap Nat Nat).contains 2 = false ∧
    (runOps [MapOp.insert 1 2] : VMap Nat Nat).removeOp 2 =
      runOps [MapOp.insert 1 2] := by
  have h1 := C2_versioned_map_semantics (K := Nat) (V := Nat) [MapOp.insert 1 2] 1
  have h2 := C2_versioned_map_semantics (K := Nat) (V := Nat) [MapOp.insert 1 2] 2
  exact ⟨h1.1.trans (by decide), h1.2.1 5 2 (h1.1.trans (by decide)),
    by decide, h2.2.2.1 (by decide)⟩

/-- C9: evaluating the code at the failing input `[insert 1 0, remove 1]`
starting from the empty map: `current` holds a tombstone for key 1 while
`base` has no entry for it, contradicting the claimed invariant (and the
comment inside `len` asserting a tombstone always matches a `base` entry);
`len` then wraps below zero (`2^64 - 1` in release builds, a panic in
debug builds) even though no key is visible; after a further `commit` the
tombstone is inserted into `base` as a `none` entry, so `len` returns 1
while `get` of every key is `none`. -/
theorem C9_tombstone_invariant_violated :
    (lookupA (runOps [MapOp.insert 1 0, MapOp.remove 1] : VMap Nat Nat).current 1 =
        some none ∧
      lookupA (runOps [MapOp.insert 1 0, MapOp.remove 1] : VMap Nat Nat).base 1 =
        none ∧
      (runOps [MapOp.insert 1 0, MapOp.remove 1] : VMap Nat Nat).len =
        18446744073709551615 ∧
      (runOps [MapOp.insert 1 0, MapOp.remove 1] : VMap Nat Nat).get 1 = none) ∧
    ((runOps [MapOp.insert 1 0, MapOp.remove 1, MapOp.commit] : VMap Nat Nat).len = 1 ∧
      (runOps [MapOp.insert 1 0, MapOp.remove 1, MapOp.commit] : VMap Nat Nat).get 1 =
        none ∧
      (runOps [MapOp.insert 1 0, MapOp.remove 1, MapOp.commit] : VMap Nat Nat).base =
        [(1, none)]) := by
  refine ⟨⟨by decide, by decide, ?_, by decide⟩, ⟨?_, by decide, by decide⟩⟩
  · show (0 % 18446744073709551616 + 18446744073709551615) % 18446744073709551616 =
      18446744073709551615
    norm_num
  · show (1 % 18446744073709551616) = 1
    norm_num

end VersionedMap

/-! ## Sealed header (src/infinitree/src/crypto/symmetric.rs)

Header constants: `SealedHeader` is 512 bytes, `Tag` 16 bytes, `Nonce`
12 bytes, so `HEADER_PAYLOAD = 484` and `HEADER_CYPHERTEXT = 500`. -/

/-- Abstract interface of the external `ring::aead` primitives used by
`seal_header`/`open_header`: `sealOp key nonce msg` encrypts in place and
returns the ciphertext together with a separate 16-byte tag
(`seal_in_place_separate_tag`); `openOp key nonce buf` verifies a
`ciphertext ++ tag` buffer and returns the plaintext (`open_in_place`). -/
structure AeadImpl where
  sealOp : List Nat → List Nat → List Nat → List Nat × List Nat
  openOp : List Nat → List Nat → List Nat → Option (List Nat)

/-- Functional correctness of an AEAD implementation: sealing preserves
the message length, produces a 16-byte tag, and opening the sealed buffer
returns the original message. -/
def AeadCorrect (a : AeadImpl) : Prop :=
  ∀ key nonce msg,
    (a.sealOp key nonce msg).1.length = msg.length ∧
    (a.sealOp key nonce msg).2.length = 16 ∧
    a.openOp key nonce ((a.sealOp key nonce msg).1 ++ (a.sealOp key nonce msg).2) =
      some msg

/-- The cleartext header: the root chunk pointer and the 32-byte
convergence key (the scheme identifier byte sits between them). -/
structure CleartextHeader where
  rootPtr : RawChunkPointer
  convergenceKey : List Nat

/-- `Mode::encode_root_to`: write the raw pointer, then the mode byte,
then the convergence key into the header buffer. -/
def encodeRootTo (le : Bool) (mode : Nat) (h : CleartextHeader) : List Nat :=
  h.rootPtr.writeTo le ++ [mode] ++ h.convergenceKey

/-- `seal_header`: the zero-initialised 512-byte output receives the
encoded root data followed by zero padding up to `HEADER_PAYLOAD = 484`
bytes and the random nonce in the trailing 12 bytes; the payload is sealed
in place and the tag stored at bytes 484..500. -/
def sealHeader (a : AeadImpl) (le : Bool) (rootKey : List Nat) (mode : Nat)
    (h : CleartextHeader) (nonce : List Nat) : List Nat :=
  let payload := encodeRootTo le mode h ++
    List.replicate (484 - (encodeRootTo le mode h).length) 0
  (a.sealOp rootKey nonce payload).1 ++ (a.sealOp rootKey nonce payload).2 ++ nonce

/-- `open_header`: read the nonce from the trailing bytes, verify and
decrypt the first 500 bytes, then parse the raw pointer, the mode byte
(which must decode to a `Mode`, i.e. be 0 or 1) and the convergence key. -/
def openHeader (a : AeadImpl) (le : Bool) (rootKey : List Nat)
    (sealed : List Nat) : Option (RawChunkPointer × Nat × List Nat) :=
  match a.openOp rootKey (sealed.drop 500) (sealed.take 500) with
  | none => none
  | some header =>
    let parsed := RawChunkPointer.parse le header
    let mode := header.getD 88 0
    if mode = 0 ∨ mode = 1 then some (parsed.2, mode, (header.drop 89).take 32)
    else none

/-- C3: for every correct AEAD, either byte order, every root key, both
header scheme modes and every well-formed cleartext header, opening the
sealed header recovers the original root pointer and convergence key. -/
theorem C3_header_seal_open_roundtrip (a : AeadImpl) (le : Bool)
    (rootKey : List Nat) (mode : Nat) (h : CleartextHeader) (nonce : List Nat)
    (ha : AeadCorrect a) (hp : h.rootPtr.WF) (hk : h.convergenceKey.length = 32)
    (hm : mode = 0 ∨ mode = 1) :
    openHeader a le rootKey (sealHeader a le rootKey mode h nonce) =
      some (h.rootPtr, mode, h.convergenceKey) := by
  have hwl : (h.rootPtr.writeTo le).length = 88 := writeTo_length le h.rootPtr hp
  have henc : (encodeRootTo le mode h).length = 121 := by
    simp [encodeRootTo, hwl, hk]
  have hpl : (encodeRootTo le mode h ++
      List.replicate (484 - (encodeRootTo le mode h).length) 0).length = 484 := by
    rw [List.length_append, List.length_replicate, henc]
  obtain ⟨hct, htag, hopen⟩ :=
    ha rootKey nonce (encodeRootTo le mode h ++
      List.replicate (484 - (encodeRootTo le mode h).length) 0)
  set payload := encodeRootTo le mode h ++
    List.replicate (484 - (encodeRootTo le mode h).length) 0 with hpay
  set ct := (a.sealOp rootKey nonce payload).1
  set tg := (a.sealOp rootKey nonce payload).2
  have hctl : (ct ++ tg).length = 500 := by
    rw [List.length_append, hct, htag, hpl]
  have hsealed : sealHeader a le rootKey mode h nonce = (ct ++ tg) ++ nonce := by
    simp [sealHeader, List.append_assoc]
  rw [openHeader, hsealed, List.take_left' hctl, List.drop_left' hctl, hopen]
  have hparse : RawChunkPointer.parse le payload = (88, h.rootPtr) := by
    rw [hpay, encodeRootTo, List.append_assoc, List.append_assoc]
    exact parse_writeTo_append le h.rootPtr _ hp
  have hmode : payload.getD 88 0 = mode := by
    rw [hpay, encodeRootTo, List.append_assoc, List.append_assoc,
      List.getD_eq_getElem?_getD, List.getElem?_append_right hwl.le, hwl]
    simp
  have hkey : (payload.drop 89).take 32 = h.convergenceKey := by
    have h89 : (h.rootPtr.writeTo le ++ [mode]).length = 89 := by
      simp [hwl]
    have hsplit : payload = (h.rootPtr.writeTo le ++ [mode]) ++
        (h.convergenceKey ++
          List.replicate (484 - (encodeRootTo le mode h).length) 0) := by
      rw [hpay, encodeRootTo]
      simp [List.append_assoc]
    rw [hsplit, List.drop_left' h89, List.take_left' hk]
  simp only [hparse, hmode, hkey]
  rw [if_pos hm]

/-- A trivially correct AEAD stand-in used to witness the round-trip
theorem on concrete data. -/
def idAead : AeadImpl where
  sealOp := fun _ _ msg => (msg, List.replicate 16 0)
  openOp := fun _ _ buf => some (buf.take (buf.length - 16))

theorem idAead_correct : AeadCorrect idAead := by
  intro key nonce msg
  refine ⟨rfl, by simp [idAead], ?_⟩
  simp only [idAead]
  rw [List.length_append, List.length_replicate, Nat.add_sub_cancel,
    List.take_left]

/-- Concrete header for the witness. -/
def headerExample : CleartextHeader :=
  ⟨ptrExample, List.replicate 32 7⟩

theorem C3_header_seal_open_roundtrip_witness :
    AeadCorrect idAead ∧ headerExample.rootPtr.WF ∧
    headerExample.convergenceKey.length = 32 ∧ ((1 : Nat) = 0 ∨ (1 : Nat) = 1) ∧
    openHeader idAead true [] (sealHeader idAead true [] 1 headerExample
        (List.replicate 12 0)) =
      some (headerExample.rootPtr, 1, headerExample.convergenceKey) :=
  ⟨idAead_correct, by decide, by decide, Or.inr rfl,
    C3_header_seal_open_roundtrip idAead true [] 1 headerExample
      (List.replicate 12 0) idAead_correct (by decide) (by decide) (Or.inr rfl)⟩

/-! ## AEADWriter chunk limits (src/infinitree/src/object/writer.rs) -/

/-- The fixed object capacity: `BLOCK_SIZE = 4 * 1024 * 1024` bytes
(src/infinitree/src/lib.rs). -/
def BLOCK_SIZE : Nat := 4194304

/-- The bound reported by `ChunkTooLarge`:
`((self.object.capacity() - 16 - 4) as f64 / 1.1) as usize`. The `f64`
division truncates `4194284 / 1.1 = 3812985.45…` to `3812985`, the same
value the exact rational `(BLOCK_SIZE - 16 - 4) * 10 / 11` yields. -/
def maxChunkSize : Nat := (BLOCK_SIZE - 16 - 4) * 10 / 11

/-- Modelled from the spec: the `compress` module is declared in
src/infinitree/src/lib.rs but its file is not under src/; per the spec it
wraps LZ4 block compression. The compressor itself stays abstract
(`comp`); `compress_into` succeeds exactly when the compressed output
fits the destination buffer, returning the compressed size. -/
def compressInto (comp : List Nat → List Nat) (data : List Nat)
    (bufLen : Nat) : Option Nat :=
  if (comp data).length ≤ bufLen then some (comp data).length else none

/-- The LZ4 worst-case expansion bound (`lz4_flex` block format):
compressed output never exceeds `len + len / 255 + 16`. -/
def ExpansionBounded (comp : List Nat → List Nat) : Prop :=
  ∀ data, (comp data).length ≤ data.length + data.length / 255 + 16

/-- `AEADWriter` writer state in `Data` mode: the cursor of the
in-progress `WriteObject` (capacity `BLOCK_SIZE`); `flush` hands the
object to the backend and resets the cursor to 0. -/
structure WriterState where
  pos : Nat
deriving Repr, DecidableEq

/-- `AEADWriter::write_chunk`: try to compress into the object's tail; on
failure flush and retry against a whole empty object; a second failure
reports `ChunkTooLarge { size: data.len(), max_size: maxChunkSize }`. On
success the chunk is encrypted in place and the cursor advances by the
compressed size. `AEADWriter::write` is `write_chunk` with the content
hash, which does not affect placement. -/
def writeChunk (comp : List Nat → List Nat) (s : WriterState)
    (data : List Nat) : Except (Nat × Nat) (WriterState × Nat) :=
  match compressInto comp data (BLOCK_SIZE - s.pos) with
  | some size => .ok ({ pos := s.pos + size }, size)
  | none =>
    match compressInto comp data BLOCK_SIZE with
    | some size => .ok ({ pos := size }, size)
    | none => .error (data.length, maxChunkSize)

/-- Fuel-bounded little-endian byte encoding of a natural number (the
fuel argument makes the recursion structural). -/
def natToBytesF : Nat → Nat → List Nat
  | 0, _ => []
  | fuel + 1, n => if n = 0 then [] else n % 256 :: natToBytesF fuel (n / 256)

def natToBytes (n : Nat) : List Nat := natToBytesF n n

def bytesToNat : List Nat → Nat
  | [] => 0
  | b :: rest => b + 256 * bytesToNat rest

theorem bytesToNat_natToBytesF (fuel n : Nat) (h : n ≤ fuel) :
    bytesToNat (natToBytesF fuel n) = n := by
  induction fuel generalizing n with
  | zero =>
    interval_cases n
    rfl
  | succ m ih =>
    by_cases hn : n = 0
    · simp [natToBytesF, hn, bytesToNat]
    · rw [natToBytesF, if_neg hn, bytesToNat, ih (n / 256) (by omega)]
      omega

theorem bytesToNat_natToBytes (n : Nat) : bytesToNat (natToBytes n) = n :=
  bytesToNat_natToBytesF n n le_rfl

theorem natToBytesF_length_le (fuel n : Nat) : (natToBytesF fuel n).length ≤ n := by
  induction fuel generalizing n with
  | zero => simp [natToBytesF]
  | succ m ih =>
    by_cases hn : n = 0
    · simp [natToBytesF, hn]
    · rw [natToBytesF, if_neg hn]
      have := ih (n / 256)
      have : n / 256 < n := Nat.div_lt_self (Nat.pos_of_ne_zero hn) (by norm_num)
      simp only [List.length_cons]
      have h2 := ih (n / 256)
      omega

/-- Modelled from the spec: a simple lossless stand-in instance for the
LZ4 block compressor — an all-zero input is stored as its length
(run-length), any other input verbatim, with one tag byte distinguishing
the cases. It satisfies the LZ4 expansion bound and, like LZ4, maps large
highly-redundant inputs to tiny outputs. -/
def zrle (data : List Nat) : List Nat :=
  if data.all (fun b => b == 0) then 0 :: natToBytes data.length
  else 1 :: data

/-- Decoder for `zrle`, showing it is lossless. -/
def zrleDecode : List Nat → Option (List Nat)
  | 0 :: rest => some (List.replicate (bytesToNat rest) 0)
  | 1 :: rest => some rest
  | _ => none

theorem zrleDecode_zrle (data : List Nat) : zrleDecode (zrle data) = some data := by
  unfold zrle
  by_cases h : data.all (fun b => b == 0)
  · rw [if_pos h]
    show some (List.replicate (bytesToNat (natToBytes data.length)) 0) = some data
    rw [bytesToNat_natToBytes]
    have : data = List.replicate data.length 0 :=
      List.eq_replicate_of_mem fun b hb => by
        simpa using List.all_eq_true.mp h b hb
    rw [← this]
  · rw [if_neg h]
    rfl

theorem zrle_expansion : ExpansionBounded zrle := by
  intro data
  unfold zrle natToBytes
  split
  · have := natToBytesF_length_le data.length data.length
    simp only [List.length_cons]
    omega
  · simp only [List.length_cons]
    omega

theorem all_replicate_zero (n : Nat) :
    (List.replicate n (0 : Nat)).all (fun b => b == 0) = true := by
  induction n with
  | zero => rfl
  | succ m ih => simp [List.replicate_succ, ih]

/-- C5 counterexample: a 4 MiB all-zero payload is larger than the claimed
`(4 MiB − 20) / 1.1` bound, yet `write_chunk` accepts it, because
acceptance depends on the compressed size fitting the object, not on the
payload size. -/
theorem C5_reject_bound_counterexample :
    (List.replicate 4194304 (0 : Nat)).length > maxChunkSize ∧
    writeChunk zrle ⟨0⟩ (List.replicate 4194304 0) = .ok (⟨4⟩, 4) := by
  have hz : zrle (List.replicate 4194304 0) = [0, 0, 0, 64] := by
    rw [zrle, if_pos (all_replicate_zero 4194304), List.length_replicate]
    rfl
  constructor
  · rw [List.length_replicate]
    norm_num [maxChunkSize, BLOCK_SIZE]
  · rw [writeChunk, compressInto, hz]
    norm_num [BLOCK_SIZE]

/-- C5 (amended): for any compressor within LZ4's worst-case expansion
bound, `write_chunk` succeeds for every payload of up to
`maxChunkSize = (4 MiB − 20) / 1.1` bytes from any writer state (flushing
the current object first when needed), and it fails only when even the
compressed payload exceeds a whole empty 4 MiB object — in which case the
reported error carries the payload length and `maxChunkSize`. Larger
payloads may still succeed when they compress well. -/
theorem C5_write_chunk_bounds (comp : List Nat → List Nat)
    (hcomp : ExpansionBounded comp) (s : WriterState) (data : List Nat) :
    (data.length ≤ maxChunkSize →
      ∃ s' size, writeChunk comp s data = .ok (s', size)) ∧
    (∀ e, writeChunk comp s data = .error e →
      BLOCK_SIZE < (comp data).length ∧ e = (data.length, maxChunkSize)) := by
  constructor
  · intro hlen
    have hb : (comp data).length ≤ BLOCK_SIZE := by
      have h1 := hcomp data
      have h2 : data.length / 255 ≤ maxChunkSize / 255 := Nat.div_le_div_right hlen
      have h3 : maxChunkSize = 3812985 := by norm_num [maxChunkSize, BLOCK_SIZE]
      rw [h3] at h2 hlen
      norm_num at h2
      show (comp data).length ≤ 4194304
      omega
    by_cases hfit : (comp data).length ≤ BLOCK_SIZE - s.pos
    · exact ⟨⟨s.pos + (comp data).length⟩, (comp data).length,
        by simp only [writeChunk, compressInto, if_pos hfit]⟩
    · exact ⟨⟨(comp data).length⟩, (comp data).length,
        by simp only [writeChunk, compressInto, if_neg hfit, if_pos hb]⟩
  · intro e he
    by_cases hfit : (comp data).length ≤ BLOCK_SIZE - s.pos
    · simp only [writeChunk, compressInto, if_pos hfit] at he
      exact Except.noConfusion he
    · by_cases hb : (comp data).length ≤ BLOCK_SIZE
      · simp only [writeChunk, compressInto, if_neg hfit, if_pos hb] at he
        exact Except.noConfusion he
      · simp only [writeChunk, compressInto, if_neg hfit, if_neg hb,
          Except.error.injEq] at he
        exact ⟨Nat.lt_of_not_le hb, he.symm⟩

theorem C5_write_chunk_bounds_witness :
    ExpansionBounded zrle ∧ ([1, 2, 3] : List Nat).length ≤ maxChunkSize ∧
    (∃ s' size, writeChunk zrle ⟨0⟩ [1, 2, 3] = .ok (s', size)) :=
  ⟨zrle_expansion, by norm_num [maxChunkSize, BLOCK_SIZE],
    (C5_write_chunk_bounds zrle zrle_expansion ⟨0⟩ [1, 2, 3]).1
      (by norm_num [maxChunkSize, BLOCK_SIZE])⟩

/-! ## Infinitree commit orchestration (src/infinitree/src/tree.rs) -/

section TreeCommit

variable {K V : Type} [DecidableEq K]

/-- Commit behaviour selector (`CommitMode`). -/
inductive CommitMode where
  | always
  | onlyOnChange
deriving Repr, DecidableEq

/-- Modelled from the spec: the per-field transaction writer
(`index/writer.rs`, declared in index.rs but not under src/) mediates
between a field's `Store` implementation and its `Stream`; per the
`BufferedSink` contract a chunk is emitted only for bytes actually
written, so a field's stream is embedded as the list of records its
`Store` wrote and is empty exactly when no record was written. The rest
is the state of tree.rs for a user index consisting of a single
`VersionedMap` field named "root" (as in `impl Index for VersionedMap`):
the field, the transaction log (newest entries first), the chronological
commit list, and the persisted root — what `sealed_root::commit` last
wrote. Commit ids are abstracted as the position in the commit list. -/
structure TreeState (K V : Type) where
  map : VMap K V
  txLog : List (Nat × String × List (K × Option V))
  commitList : List Nat
  persisted : Option (List (Nat × String × List (K × Option V)) × List Nat)

def emptyTree : TreeState K V := ⟨VMap.empty, [], [], none⟩

/-- `Infinitree::commit_with_metadata`: run the field's `Store` through a
`BufferedSink` — for `VersionedMap` this writes every `current` entry and
then folds the delta via `commit()` — producing the changeset; in
`OnlyOnChange` mode, when every produced stream is empty (here: the map
had no uncommitted entries), return the last commit with the log, list
and persisted root untouched; otherwise prepend the changeset to the
transaction log, append the new commit, and persist the root
(`sealed_root::commit`, whose possible failure is the `persistOk`
parameter — on failure the error propagates after the in-memory log was
already updated). Returns the resulting in-memory state and the call's
result. -/
def commitWithMetadata (t : TreeState K V) (mode : CommitMode)
    (persistOk : Bool) : TreeState K V × Except Unit (Option Nat) :=
  if mode = CommitMode.onlyOnChange ∧ t.map.current.isEmpty then
    ({ t with map := t.map.commitOp },
      Except.ok { t with map := t.map.commitOp }.commitList.getLast?)
  else if persistOk then
    ({ map := t.map.commitOp
       txLog := (t.commitList.length, "root", t.map.current) :: t.txLog
       commitList := t.commitList ++ [t.commitList.length]
       persisted := some ((t.commitList.length, "root", t.map.current) :: t.txLog,
         t.commitList ++ [t.commitList.length]) },
      Except.ok (some t.commitList.length))
  else
    ({ map := t.map.commitOp
       txLog := (t.commitList.length, "root", t.map.current) :: t.txLog
       commitList := t.commitList ++ [t.commitList.length]
       persisted := t.persisted },
      Except.error ())

/-- Repeated `commit(None)` calls (state only; `commit` uses
`OnlyOnChange`). -/
def commitN (t : TreeState K V) : Nat → TreeState K V
  | 0 => t
  | n + 1 => commitN (commitWithMetadata t CommitMode.onlyOnChange true).1 n

theorem commitOp_of_current_nil (m : VMap K V) (h : m.current = []) :
    m.commitOp = m := by
  obtain ⟨b, c⟩ := m
  simp only at h
  subst h
  rfl

/-- C10: every commit call runs the field-store phase first, folding the
`VersionedMap` delta into its base before the OnlyOnChange check and
before the root is persisted: for every mode, and whether persisting the
sealed root succeeds or fails, afterwards the field's `current` map is
empty, its base is the folded base, and `rollback` can no longer undo the
delta (it is a no-op on the resulting map). -/
theorem C10_commit_folds_delta (t : TreeState K V) (mode : CommitMode)
    (persistOk : Bool) :
    (commitWithMetadata t mode persistOk).1.map.current = [] ∧
    (commitWithMetadata t mode persistOk).1.map.base = t.map.commitOp.base ∧
    (commitWithMetadata t mode persistOk).1.map.rollbackOp =
      (commitWithMetadata t mode persistOk).1.map := by
  unfold commitWithMetadata
  split
  · exact ⟨rfl, rfl, rfl⟩
  · split
    · exact ⟨rfl, rfl, rfl⟩
    · exact ⟨rfl, rfl, rfl⟩

/-- C4 counterexample: committing a genuinely empty tree repeatedly in
`OnlyOnChange` mode yields zero commits, not one — the early return
applies to the very first commit as well, so no commit is ever created
and nothing is ever persisted. -/
theorem C4_empty_tree_counterexample :
    (commitN (emptyTree : TreeState Nat Nat) 2).commitList.length = 0 ∧
    (commitN (emptyTree : TreeState Nat Nat) 2).commitList.length ≠ 1 ∧
    (commitN (emptyTree : TreeState Nat Nat) 2).persisted = none := by
  refine ⟨rfl, by decide, rfl⟩

/-- C4 (amended): in `OnlyOnChange` mode, when the field's produced
stream is empty (the map has no uncommitted entries),
`commit_with_metadata` returns the previous commit and leaves the tree
unchanged — no entry is added to the transaction log or the commit list
and the persisted root is untouched — and repeated commits keep the state
fixed; so a tree already holding exactly one commit keeps exactly one,
while a genuinely empty tree never gains a commit at all. -/
theorem C4_empty_commit_noop (t : TreeState K V) (n : Nat)
    (h : t.map.current = []) :
    commitWithMetadata t CommitMode.onlyOnChange true =
      (t, Except.ok t.commitList.getLast?) ∧
    commitN t n = t := by
  have hc : t.map.commitOp = t.map := commitOp_of_current_nil t.map h
  have hstep : commitWithMetadata t CommitMode.onlyOnChange true =
      (t, Except.ok t.commitList.getLast?) := by
    unfold commitWithMetadata
    rw [if_pos ⟨rfl, by rw [h]; rfl⟩, hc]
  refine ⟨hstep, ?_⟩
  induction n with
  | zero => rfl
  | succ m ih =>
    rw [commitN, hstep]
    exact ih

theorem C4_empty_commit_noop_witness :
    (emptyTree : TreeState Nat Nat).map.current = [] ∧
    (commitWithMetadata (emptyTree : TreeState Nat Nat) CommitMode.onlyOnChange
        true = (emptyTree, Except.ok none) ∧
      commitN (emptyTree : TreeState Nat Nat) 3 = emptyTree) := by
  refine ⟨rfl, ?_⟩
  have h := C4_empty_commit_noop (emptyTree : TreeState Nat Nat) 3 rfl
  simpa using h

end TreeCommit

/-! ## Cache backend (src/infinitree/src/backends/cache.rs)

State kept by the embedding: the warm set, the LRU file list (most recent
first; `pop_lru` takes the last element) and the byte `size_limit`.
Object contents, the local directory and the upstream backend do not
affect the claims; an id is in the local cache exactly when it is in the
warm set or the file list. Ids are abstract naturals. -/

structure CacheState where
  warm : List Nat
  lru : List Nat
  limit : Nat
deriving Repr, DecidableEq

/-- `Cache::size`: `BLOCK_SIZE * (warm.len() + file_list.len())`. -/
def CacheState.size (s : CacheState) : Nat :=
  BLOCK_SIZE * (s.warm.length + s.lru.length)

/-- `LruCache::put` (unbounded LRU): insert or refresh at the
most-recent end. -/
def lruPut (l : List Nat) (x : Nat) : List Nat :=
  x :: l.filter (fun y => y != x)

/-- `LruCache::pop`: remove the entry of a key. -/
def lruDrop (l : List Nat) (x : Nat) : List Nat :=
  l.filter (fun y => y != x)

/-- `LruCache::get`: on a hit the entry is bumped to most recent. -/
def lruGet (l : List Nat) (x : Nat) : Bool × List Nat :=
  if l.contains x then (true, x :: l.filter (fun y => y != x)) else (false, l)

/-- `Cache::make_space_for_object`: pop and delete least-recently-used
files while `size() > size_limit - BLOCK_SIZE`; popping from an empty
list is the "cache is too small!" error. Returns the state after the
loop, the evicted ids, and whether the loop completed without error (on
error the evictions already performed persist, as in the source). The
fuel argument makes the recursion structural; the wrapper passes the LRU
length, which bounds the number of iterations. -/
def makeSpaceFuel : Nat → CacheState → CacheState × List Nat × Bool
  | 0, s =>
    if s.size ≤ s.limit - BLOCK_SIZE then (s, [], true) else (s, [], false)
  | fuel + 1, s =>
    if s.size ≤ s.limit - BLOCK_SIZE then (s, [], true)
    else
      match s.lru.getLast? with
      | some victim =>
        let r := makeSpaceFuel fuel { s with lru := s.lru.dropLast }
        (r.1, victim :: r.2.1, r.2.2)
      | none => (s, [], false)

def makeSpace (s : CacheState) : CacheState × List Nat × Bool :=
  makeSpaceFuel s.lru.length s

/-- `Cache::add_new_object`: make space, write the file locally, and
admit the id into the LRU unless it is warm. A `make_space_for_object`
error propagates before the admission. -/
def addNewObject (s : CacheState) (id : Nat) : CacheState × List Nat × Bool :=
  if (makeSpace s).2.2 then
    if (makeSpace s).1.warm.contains id then
      ((makeSpace s).1, (makeSpace s).2.1, true)
    else
      ({ (makeSpace s).1 with lru := lruPut (makeSpace s).1.lru id },
        (makeSpace s).2.1, true)
  else ((makeSpace s).1, (makeSpace s).2.1, false)

/-- `Cache::write_object`: write through to the upstream, then admit
locally. -/
def cacheWrite (s : CacheState) (id : Nat) : CacheState × List Nat × Bool :=
  addNewObject s id

/-- `Cache::read_object` (`read_cache_or_upstream`): a hit in the LRU
(which bumps recency) or in the warm set is served from the local
directory when that read succeeds (`localOk`); a miss or a failed local
read falls back to the upstream (`read_upstream`), admitting the object
when the upstream read succeeds (`upstreamOk`). -/
def cacheRead (s : CacheState) (id : Nat) (localOk upstreamOk : Bool) :
    CacheState × List Nat × Bool :=
  if (lruGet s.lru id).1 || s.warm.contains id then
    if localOk then ({ s with lru := (lruGet s.lru id).2 }, [], true)
    else if upstreamOk then addNewObject { s with lru := (lruGet s.lru id).2 } id
    else ({ s with lru := (lruGet s.lru id).2 }, [], false)
  else if upstreamOk then addNewObject { s with lru := (lruGet s.lru id).2 } id
  else ({ s with lru := (lruGet s.lru id).2 }, [], false)

/-- `Cache::read_fresh` (`read_upstream`): always read from the
upstream, admitting on success. -/
def cacheReadFresh (s : CacheState) (id : Nat) (upstreamOk : Bool) :
    CacheState × List Nat × Bool :=
  if upstreamOk then addNewObject s id else (s, [], false)

/-- `Cache::keep_warm`: error when the warm list alone would exceed the
cache size; otherwise replace the warm set and pop every warm id from the
LRU. -/
def keepWarm (s : CacheState) (ids : List Nat) : CacheState × Bool :=
  if ids.length * BLOCK_SIZE > s.limit then (s, false)
  else ({ s with warm := ids, lru := ids.foldl lruDrop s.lru }, true)

/-- `Cache::preload`: read every listed object through `read_object`
(each job carries the two read-outcome oracles). -/
def cachePreload (s : CacheState) (jobs : List (Nat × Bool × Bool)) : CacheState :=
  jobs.foldl (fun st j => (cacheRead st j.1 j.2.1 j.2.2).1) s

/-- The operations through which cache states are reachable. -/
inductive CacheOp where
  | write (id : Nat)
  | read (id : Nat) (localOk upstreamOk : Bool)
  | readFresh (id : Nat) (upstreamOk : Bool)
  | keepW (ids : List Nat)
  | preload (jobs : List (Nat × Bool × Bool))

def cacheStep (s : CacheState) : CacheOp → CacheState
  | .write id => (cacheWrite s id).1
  | .read id l u => (cacheRead s id l u).1
  | .readFresh id u => (cacheReadFresh s id u).1
  | .keepW ids => (keepWarm s ids).1
  | .preload jobs => cachePreload s jobs

/-- A fresh cache over an empty local directory with the given byte limit
(`Cache::new` requires at least `BLOCK_SIZE`). -/
def cacheRun (limit : Nat) (ops : List CacheOp) : CacheState :=
  ops.foldl cacheStep ⟨[], [], limit⟩

/-- A sequence of `write_object` calls, collecting every evicted id. -/
def runWrites (s : CacheState) : List Nat → CacheState × List Nat
  | [] => (s, [])
  | id :: rest =>
    ((runWrites (cacheWrite s id).1 rest).1,
      (cacheWrite s id).2.1 ++ (runWrites (cacheWrite s id).1 rest).2)

/-! ### Cache lemmas -/

theorem mem_of_getLast?_eq_some {l : List Nat} {x : Nat}
    (h : l.getLast? = some x) : x ∈ l := by
  induction l with
  | nil => cases h
  | cons a rest ih =>
    cases rest with
    | nil =>
      simp only [List.getLast?_singleton, Option.some.injEq] at h
      simp [h]
    | cons b t =>
      rw [List.getLast?_cons_cons] at h
      exact List.mem_cons_of_mem a (ih h)

theorem eq_nil_of_getLast?_eq_none {l : List Nat} (h : l.getLast? = none) :
    l = [] := by
  cases l with
  | nil => rfl
  | cons a rest =>
    cases rest with
    | nil => simp at h
    | cons b t =>
      rw [List.getLast?_cons_cons] at h
      have := eq_nil_of_getLast?_eq_none h
      cases this

theorem makeSpaceFuel_spec (fuel : Nat) (s : CacheState) :
    (makeSpaceFuel fuel s).1.warm = s.warm ∧
    (makeSpaceFuel fuel s).1.limit = s.limit ∧
    (∀ x ∈ (makeSpaceFuel fuel s).1.lru, x ∈ s.lru) ∧
    (∀ x ∈ (makeSpaceFuel fuel s).2.1, x ∈ s.lru) ∧
    (makeSpaceFuel fuel s).1.lru.length ≤ s.lru.length ∧
    ((makeSpaceFuel fuel s).2.2 = true →
      (makeSpaceFuel fuel s).1.size ≤ s.limit - BLOCK_SIZE) := by
  induction fuel generalizing s with
  | zero =>
    unfold makeSpaceFuel
    split
    next h =>
      exact ⟨rfl, rfl, fun x hx => hx, by simp, le_rfl, fun _ => h⟩
    next h =>
      exact ⟨rfl, rfl, fun x hx => hx, by simp, le_rfl,
        fun hh => absurd hh (by simp)⟩
  | succ fuel ih =>
    unfold makeSpaceFuel
    split
    next h =>
      exact ⟨rfl, rfl, fun x hx => hx, by simp, le_rfl, fun _ => h⟩
    next h =>
      cases hl : s.lru.getLast? with
      | none =>
        exact ⟨rfl, rfl, fun x hx => hx, by simp, le_rfl,
          fun hh => absurd hh (by simp)⟩
      | some victim =>
        obtain ⟨w, lim, mlru, mev, mlen, msize⟩ :=
          ih { s with lru := s.lru.dropLast }
        have hdrop : ∀ x ∈ s.lru.dropLast, x ∈ s.lru :=
          fun x hx => (List.dropLast_sublist s.lru).mem hx
        refine ⟨w, lim, fun x hx => hdrop _ (mlru x hx), ?_, ?_, msize⟩
        · intro x hx
          simp only [List.mem_cons] at hx
          rcases hx with hx | hx
          · exact hx ▸ mem_of_getLast?_eq_some hl
          · exact hdrop _ (mev x hx)
        · calc (makeSpaceFuel fuel { s with lru := s.lru.dropLast }).1.lru.length
              ≤ s.lru.dropLast.length := mlen
            _ ≤ s.lru.length := by rw [List.length_dropLast]; omega

theorem makeSpaceFuel_fail_lru (fuel : Nat) (s : CacheState)
    (hf : s.lru.length ≤ fuel) (h : (makeSpaceFuel fuel s).2.2 = false) :
    (makeSpaceFuel fuel s).1.lru = [] := by
  induction fuel generalizing s with
  | zero =>
    have hnil : s.lru = [] := List.eq_nil_of_length_eq_zero (Nat.le_zero.mp hf)
    unfold makeSpaceFuel
    split <;> exact hnil
  | succ fuel ih =>
    by_cases hcond : s.size ≤ s.limit - BLOCK_SIZE
    · unfold makeSpaceFuel at h
      rw [if_pos hcond] at h
      simp at h
    · unfold makeSpaceFuel at h ⊢
      rw [if_neg hcond] at h ⊢
      cases hl : s.lru.getLast? with
      | none =>
        simp only [hl]
        exact eq_nil_of_getLast?_eq_none hl
      | some victim =>
        simp only [hl] at h ⊢
        have hne : s.lru ≠ [] := by
          intro hn
          rw [hn] at hl
          cases hl
        apply ih { s with lru := s.lru.dropLast }
        · simp only [List.length_dropLast]
          have : 0 < s.lru.length := List.length_pos.mpr hne
          omega
        · exact h

theorem lruPut_length_le (l : List Nat) (x : Nat) :
    (lruPut l x).length ≤ l.length + 1 := by
  unfold lruPut
  simp only [List.length_cons]
  have := List.length_filter_le (fun y => y != x) l
  omega

theorem mem_lruPut {l : List Nat} {x y : Nat} (h : y ∈ lruPut l x) :
    y = x ∨ y ∈ l := by
  unfold lruPut at h
  simp only [List.mem_cons, List.mem_filter] at h
  rcases h with h | h
  · exact Or.inl h
  · exact Or.inr h.1

theorem makeSpace_spec (s : CacheState) :
    (makeSpace s).1.warm = s.warm ∧
    (makeSpace s).1.limit = s.limit ∧
    (∀ x ∈ (makeSpace s).1.lru, x ∈ s.lru) ∧
    (∀ x ∈ (makeSpace s).2.1, x ∈ s.lru) ∧
    (makeSpace s).1.lru.length ≤ s.lru.length ∧
    ((makeSpace s).2.2 = true → (makeSpace s).1.size ≤ s.limit - BLOCK_SIZE) :=
  makeSpaceFuel_spec s.lru.length s

theorem makeSpace_fail_lru (s : CacheState)
    (h : (makeSpace s).2.2 = false) : (makeSpace s).1.lru = [] :=
  makeSpaceFuel_fail_lru s.lru.length s le_rfl h

theorem addNewObject_spec (s : CacheState) (id : Nat) :
    (addNewObject s id).1.warm = s.warm ∧
    (addNewObject s id).1.limit = s.limit ∧
    (∀ x ∈ (addNewObject s id).2.1, x ∈ s.lru) ∧
    (∀ x ∈ (addNewObject s id).1.lru, x = id ∨ x ∈ s.lru) ∧
    (s.warm.contains id = true →
      ∀ x ∈ (addNewObject s id).1.lru, x ∈ s.lru) ∧
    (s.warm.length * BLOCK_SIZE ≤ s.limit → BLOCK_SIZE ≤ s.limit →
      (addNewObject s id).1.size ≤ s.limit) := by
  obtain ⟨w, lim, mlru, mev, mlen, msize⟩ := makeSpace_spec s
  unfold addNewObject
  by_cases hok : (makeSpace s).2.2 = true
  · rw [if_pos hok]
    have hsz := msize hok
    by_cases hwarm : (makeSpace s).1.warm.contains id = true
    · rw [if_pos hwarm]
      refine ⟨w, lim, mev, fun x hx => Or.inr (mlru x hx), fun _ => mlru, ?_⟩
      intro hwl hB
      calc (makeSpace s).1.size
          ≤ s.limit - BLOCK_SIZE := hsz
        _ ≤ s.limit := Nat.sub_le ..
    · rw [if_neg hwarm]
      have hwarm' : s.warm.contains id = false := by
        rw [← w]
        exact Bool.eq_false_iff.mpr hwarm
      refine ⟨w, lim, mev, ?_, ?_, ?_⟩
      · intro x hx
        rcases mem_lruPut hx with hx | hx
        · exact Or.inl hx
        · exact Or.inr (mlru x hx)
      · intro hcon
        rw [hwarm'] at hcon
        cases hcon
      · intro hwl hB
        have hlen : (lruPut (makeSpace s).1.lru id).length ≤
            (makeSpace s).1.lru.length + 1 := lruPut_length_le ..
        have hsz' : BLOCK_SIZE * (s.warm.length + (makeSpace s).1.lru.length) ≤
            s.limit - BLOCK_SIZE := by
          have := hsz
          unfold CacheState.size at this
          rw [w] at this
          exact this
        have hgoal : BLOCK_SIZE * ((makeSpace s).1.warm.length +
            (lruPut (makeSpace s).1.lru id).length) ≤ s.limit := by
          rw [w]
          have h1 : BLOCK_SIZE * (s.warm.length +
              (lruPut (makeSpace s).1.lru id).length) ≤
              BLOCK_SIZE * (s.warm.length + ((makeSpace s).1.lru.length + 1)) :=
            Nat.mul_le_mul_left _ (by omega)
          have h2 : BLOCK_SIZE * (s.warm.length +
              ((makeSpace s).1.lru.length + 1)) =
              BLOCK_SIZE * (s.warm.length + (makeSpace s).1.lru.length) +
                BLOCK_SIZE := by ring
          omega
        exact hgoal
  · rw [if_neg hok]
    rw [Bool.not_eq_true] at hok
    have hnil : (makeSpace s).1.lru = [] := makeSpace_fail_lru s hok
    refine ⟨w, lim, mev, fun x hx => Or.inr (mlru x hx), fun _ => mlru, ?_⟩
    intro hwl hB
    have hgoal : BLOCK_SIZE * ((makeSpace s).1.warm.length +
        (makeSpace s).1.lru.length) ≤ s.limit := by
      rw [w, hnil]
      simp only [List.length_nil, Nat.add_zero]
      calc BLOCK_SIZE * s.warm.length
          = s.warm.length * BLOCK_SIZE := Nat.mul_comm ..
        _ ≤ s.limit := hwl
    exact hgoal

theorem mem_foldl_lruDrop (ids : List Nat) (l : List Nat) (x : Nat)
    (h : x ∈ ids.foldl lruDrop l) : x ∈ l := by
  induction ids generalizing l with
  | nil => exact h
  | cons i rest ih =>
    have hh := ih (lruDrop l i) h
    unfold lruDrop at hh
    exact (List.mem_filter.mp hh).1

theorem not_mem_foldl_lruDrop (ids : List Nat) (l : List Nat) (i : Nat)
    (h : i ∈ ids) : i ∉ ids.foldl lruDrop l := by
  induction ids generalizing l with
  | nil => cases h
  | cons j rest ih =>
    intro hmem
    rcases List.mem_cons.mp h with hj | hrest
    · subst hj
      have hin := mem_foldl_lruDrop rest (lruDrop l i) i hmem
      unfold lruDrop at hin
      have := (List.mem_filter.mp hin).2
      simp at this
    · exact ih (lruDrop l j) hrest hmem

theorem foldl_lruDrop_length_le (ids : List Nat) (l : List Nat) :
    (ids.foldl lruDrop l).length ≤ l.length := by
  induction ids generalizing l with
  | nil => exact le_rfl
  | cons i rest ih =>
    exact (ih (lruDrop l i)).trans (List.length_filter_le _ l)

theorem filter_ne_length_lt (l : List Nat) (x : Nat) (h : x ∈ l) :
    (l.filter (fun y => y != x)).length < l.length := by
  induction l with
  | nil => cases h
  | cons a rest ih =>
    by_cases ha : a = x
    · subst ha
      simp only [List.filter_cons, bne_self_eq_false, Bool.false_eq_true,
        if_false, List.length_cons]
      exact Nat.lt_succ_of_le (List.length_filter_le _ rest)
    · have hx : x ∈ rest := by
        rcases List.mem_cons.mp h with hh | hh
        · exact absurd hh.symm ha
        · exact hh
      have hne : (a != x) = true := bne_iff_ne.mpr ha
      simp only [List.filter_cons, hne, if_true, List.length_cons]
      exact Nat.succ_lt_succ (ih hx)

theorem lruGet_length_le (l : List Nat) (x : Nat) :
    (lruGet l x).2.length ≤ l.length := by
  unfold lruGet
  split
  next h =>
    simp only [List.length_cons]
    have hx : x ∈ l := by simpa using h
    have := filter_ne_length_lt l x hx
    omega
  next h => exact le_rfl

/-- The per-component occupancy invariant of reachable cache states. -/
def CacheInv (limit : Nat) (s : CacheState) : Prop :=
  s.limit = limit ∧ s.warm.length * BLOCK_SIZE ≤ limit ∧
  s.lru.length * BLOCK_SIZE ≤ limit

theorem addNewObject_inv (limit : Nat) (s : CacheState) (id : Nat)
    (hB : BLOCK_SIZE ≤ limit) (h : CacheInv limit s) :
    CacheInv limit (addNewObject s id).1 ∧
    (addNewObject s id).1.size ≤ limit := by
  obtain ⟨hlim, hw, hl⟩ := h
  obtain ⟨w, lim, mev, mlru, mwarm, msz⟩ := addNewObject_spec s id
  have hsz : (addNewObject s id).1.size ≤ limit := by
    have := msz (by rw [hlim]; exact hw) (by rw [hlim]; exact hB)
    rw [hlim] at this
    exact this
  have hlru : (addNewObject s id).1.lru.length * BLOCK_SIZE ≤
      (addNewObject s id).1.size := by
    unfold CacheState.size
    calc (addNewObject s id).1.lru.length * BLOCK_SIZE
        = BLOCK_SIZE * (addNewObject s id).1.lru.length := Nat.mul_comm ..
      _ ≤ BLOCK_SIZE * ((addNewObject s id).1.warm.length +
          (addNewObject s id).1.lru.length) :=
        Nat.mul_le_mul_left _ (Nat.le_add_left ..)
  exact ⟨⟨lim.trans hlim, w ▸ hw, hlru.trans hsz⟩, hsz⟩

theorem cacheRead_inv (limit : Nat) (s : CacheState) (id : Nat)
    (lok uok : Bool) (hB : BLOCK_SIZE ≤ limit) (h : CacheInv limit s) :
    CacheInv limit (cacheRead s id lok uok).1 := by
  obtain ⟨hlim, hw, hl⟩ := h
  have hs1 : CacheInv limit { s with lru := (lruGet s.lru id).2 } := by
    refine ⟨hlim, hw, ?_⟩
    calc (lruGet s.lru id).2.length * BLOCK_SIZE
        ≤ s.lru.length * BLOCK_SIZE :=
        Nat.mul_le_mul_right _ (lruGet_length_le ..)
      _ ≤ limit := hl
  unfold cacheRead
  split
  · split
    · exact hs1
    · split
      · exact (addNewObject_inv limit _ id hB hs1).1
      · exact hs1
  · split
    · exact (addNewObject_inv limit _ id hB hs1).1
    · exact hs1

theorem cacheReadFresh_inv (limit : Nat) (s : CacheState) (id : Nat)
    (uok : Bool) (hB : BLOCK_SIZE ≤ limit) (h : CacheInv limit s) :
    CacheInv limit (cacheReadFresh s id uok).1 := by
  unfold cacheReadFresh
  split
  · exact (addNewObject_inv limit s id hB h).1
  · exact h

theorem keepWarm_inv (limit : Nat) (s : CacheState) (ids : List Nat)
    (h : CacheInv limit s) : CacheInv limit (keepWarm s ids).1 := by
  obtain ⟨hlim, hw, hl⟩ := h
  unfold keepWarm
  split
  next hgt => exact ⟨hlim, hw, hl⟩
  next hle =>
    refine ⟨hlim, ?_, ?_⟩
    · show ids.length * BLOCK_SIZE ≤ limit
      rw [hlim] at hle
      omega
    · show (ids.foldl lruDrop s.lru).length * BLOCK_SIZE ≤ limit
      calc (ids.foldl lruDrop s.lru).length * BLOCK_SIZE
          ≤ s.lru.length * BLOCK_SIZE :=
          Nat.mul_le_mul_right _ (foldl_lruDrop_length_le ..)
        _ ≤ limit := hl

theorem cachePreload_inv (limit : Nat) (jobs : List (Nat × Bool × Bool))
    (s : CacheState) (hB : BLOCK_SIZE ≤ limit) (h : CacheInv limit s) :
    CacheInv limit (cachePreload s jobs) := by
  induction jobs generalizing s with
  | nil => exact h
  | cons j rest ih =>
    exact ih _ (cacheRead_inv limit s j.1 j.2.1 j.2.2 hB h)

theorem cacheStep_inv (limit : Nat) (s : CacheState) (op : CacheOp)
    (hB : BLOCK_SIZE ≤ limit) (h : CacheInv limit s) :
    CacheInv limit (cacheStep s op) := by
  cases op with
  | write id => exact (addNewObject_inv limit s id hB h).1
  | read id lok uok => exact cacheRead_inv limit s id lok uok hB h
  | readFresh id uok => exact cacheReadFresh_inv limit s id uok hB h
  | keepW ids => exact keepWarm_inv limit s ids h
  | preload jobs => exact cachePreload_inv limit jobs s hB h

theorem cacheRun_inv (limit : Nat) (ops : List CacheOp)
    (hB : BLOCK_SIZE ≤ limit) : CacheInv limit (cacheRun limit ops) := by
  unfold cacheRun
  suffices hgen : ∀ s, CacheInv limit s →
      CacheInv limit (ops.foldl cacheStep s) from
    hgen ⟨[], [], limit⟩ ⟨rfl, by simp, by simp⟩
  induction ops with
  | nil => exact fun s hs => hs
  | cons op rest ih => exact fun s hs => ih _ (cacheStep_inv limit s op hB hs)

/-- C7 counterexample: with a 2-object cache, two writes followed by a
successful `keep_warm` of two fresh ids leave four tracked objects —
16 MiB of occupancy against an 8 MiB `size_limit` — because `keep_warm`
bounds only the warm list and does not evict the existing LRU entries. -/
theorem C7_occupancy_counterexample :
    (cacheRun (2 * BLOCK_SIZE)
      [CacheOp.write 1, CacheOp.write 2, CacheOp.keepW [3, 4]]).size =
      4 * BLOCK_SIZE ∧
    ¬ (cacheRun (2 * BLOCK_SIZE)
      [CacheOp.write 1, CacheOp.write 2, CacheOp.keepW [3, 4]]).size ≤
      2 * BLOCK_SIZE := by
  constructor
  · decide
  · decide

/-- C7 (amended): starting from a fresh cache with
`size_limit ≥ BLOCK_SIZE`, in every state reachable through
`write_object`, `read_object`, `read_fresh`, `keep_warm` and `preload`
the warm set and the LRU file list each occupy at most `size_limit`
bytes, so together at most `2 * size_limit`; immediately after any
`write_object` the combined occupancy is back within `size_limit` —
only `keep_warm` can leave it above. -/
theorem C7_occupancy_bounds (limit : Nat) (ops : List CacheOp) (id : Nat)
    (hB : BLOCK_SIZE ≤ limit) :
    (cacheRun limit ops).warm.length * BLOCK_SIZE ≤ limit ∧
    (cacheRun limit ops).lru.length * BLOCK_SIZE ≤ limit ∧
    (cacheRun limit ops).size ≤ 2 * limit ∧
    (cacheRun limit (ops ++ [CacheOp.write id])).size ≤ limit := by
  obtain ⟨hlim, hw, hl⟩ := cacheRun_inv limit ops hB
  refine ⟨hw, hl, ?_, ?_⟩
  · unfold CacheState.size
    calc BLOCK_SIZE * ((cacheRun limit ops).warm.length +
          (cacheRun limit ops).lru.length)
        = (cacheRun limit ops).warm.length * BLOCK_SIZE +
          (cacheRun limit ops).lru.length * BLOCK_SIZE := by ring
      _ ≤ limit + limit := Nat.add_le_add hw hl
      _ = 2 * limit := by ring
  · have hstep : cacheRun limit (ops ++ [CacheOp.write id]) =
        (addNewObject (cacheRun limit ops) id).1 := by
      unfold cacheRun
      rw [List.foldl_append]
      rfl
    rw [hstep]
    exact (addNewObject_inv limit (cacheRun limit ops) id hB
      (cacheRun_inv limit ops hB)).2

theorem C7_occupancy_bounds_witness :
    BLOCK_SIZE ≤ 2 * BLOCK_SIZE ∧
    ((cacheRun (2 * BLOCK_SIZE) [CacheOp.write 1]).warm.length * BLOCK_SIZE ≤
        2 * BLOCK_SIZE ∧
      (cacheRun (2 * BLOCK_SIZE) [CacheOp.write 1]).lru.length * BLOCK_SIZE ≤
        2 * BLOCK_SIZE ∧
      (cacheRun (2 * BLOCK_SIZE) [CacheOp.write 1]).size ≤
        2 * (2 * BLOCK_SIZE) ∧
      (cacheRun (2 * BLOCK_SIZE) ([CacheOp.write 1] ++ [CacheOp.write 2])).size ≤
        2 * BLOCK_SIZE) :=
  ⟨by norm_num [BLOCK_SIZE],
    C7_occupancy_bounds (2 * BLOCK_SIZE) [CacheOp.write 1] 2
      (by norm_num [BLOCK_SIZE])⟩

/-! ### C6: the warm set is never evicted -/

theorem keepWarm_success (s : CacheState) (ids : List Nat)
    (h : ¬ ids.length * BLOCK_SIZE > s.limit) :
    keepWarm s ids =
      ({ s with warm := ids, lru := ids.foldl lruDrop s.lru }, true) := by
  unfold keepWarm
  rw [if_neg h]

theorem cacheWrite_warm_step (s : CacheState) (ids : List Nat) (id : Nat)
    (h1 : s.warm = ids) (h2 : ∀ i ∈ ids, i ∉ s.lru) :
    (cacheWrite s id).1.warm = ids ∧
    (∀ i ∈ ids, i ∉ (cacheWrite s id).1.lru) ∧
    (∀ x ∈ (cacheWrite s id).2.1, x ∉ ids) := by
  obtain ⟨w, lim, mev, mlru, mwarm, msz⟩ := addNewObject_spec s id
  refine ⟨w.trans h1, ?_, ?_⟩
  · intro i hi hmem
    by_cases hid : id ∈ ids
    · have hcon : s.warm.contains id = true := by
        rw [h1]
        simpa using hid
      exact h2 i hi (mwarm hcon i hmem)
    · rcases mlru i hmem with hii | hii
      · exact hid (hii ▸ hi)
      · exact h2 i hi hii
  · intro x hx hxin
    exact h2 x hxin (mev x hx)

theorem runWrites_no_warm_evict (ids : List Nat) (writes : List Nat)
    (s : CacheState) (h1 : s.warm = ids) (h2 : ∀ i ∈ ids, i ∉ s.lru) :
    ∀ x ∈ (runWrites s writes).2, x ∉ ids := by
  induction writes generalizing s with
  | nil =>
    intro x hx
    simp [runWrites] at hx
  | cons id rest ih =>
    intro x hx
    obtain ⟨w', l', e'⟩ := cacheWrite_warm_step s ids id h1 h2
    unfold runWrites at hx
    simp only [List.mem_append] at hx
    rcases hx with hx | hx
    · exact e' x hx
    · exact ih (cacheWrite s id).1 w' l' x hx

/-- C6: after a successful `keep_warm(ids)` (the warm list fits the cache
and, as the source's panicking insert assumes, has no duplicates), no
subsequent sequence of `write_object` calls — however long — ever evicts
a warm id: every id evicted during the writes lies outside `ids`, since
eviction only pops victims from the LRU file list, `keep_warm` removed
the warm ids from that list, and admission never puts a warm id back. -/
theorem C6_keep_warm_never_evicts (s : CacheState) (ids : List Nat)
    (writes : List Nat) (_hnd : ids.Nodup)
    (h : ids.length * BLOCK_SIZE ≤ s.limit) :
    (keepWarm s ids).2 = true ∧
    ∀ x ∈ (runWrites (keepWarm s ids).1 writes).2, x ∉ ids := by
  have hng : ¬ ids.length * BLOCK_SIZE > s.limit := not_lt.mpr h
  rw [keepWarm_success s ids hng]
  refine ⟨rfl, ?_⟩
  exact runWrites_no_warm_evict ids writes _ rfl
    (fun i hi => not_mem_foldl_lruDrop ids s.lru i hi)

/-- Concrete cache used by the C6 witness: 8 MiB limit, two cached
files. -/
def cacheExample : CacheState := ⟨[], [7, 8], 8388608⟩

theorem C6_keep_warm_never_evicts_witness :
    ([7] : List Nat).Nodup ∧
    ([7] : List Nat).length * BLOCK_SIZE ≤ cacheExample.limit ∧
    ((keepWarm cacheExample [7]).2 = true ∧
      ∀ x ∈ (runWrites (keepWarm cacheExample [7]).1 [9, 10, 11]).2,
        x ∉ ([7] : List Nat)) :=
  ⟨by decide, by decide,
    C6_keep_warm_never_evicts cacheExample [7] [9, 10, 11] (by decide)
      (by decide)⟩

end Infinitree
